import Mathlib

/-!
Shallow embedding of `app/main.py` of the portland-ordinance-api repository.

Strings are modelled as lists of characters (`Str`), Python's `in`
(substring containment) as `subOf`, Python dicts as association lists in
insertion order, and floating-point scores as rationals.  Network calls
(`duckduck_search`'s HTTP GET, `fetch_url`) and the HTML parser are external
collaborators: they enter as oracle functions whose `none` result models a
raised exception, and a parsed HTML document is an abstract structure holding
the pieces the code reads from BeautifulSoup (the h1/h2/h3 heading texts and
the cleaned page text).
-/

/-- Python strings, modelled as lists of characters. -/
abbrev Str := List Char

/-- `s.lower()`. -/
def strLower (s : Str) : Str := s.map Char.toLower

/-- Does `needle` occur at the start of `hay`?  (Helper for `subOf`.) -/
def startsAt : Str → Str → Bool
  | [], _ => true
  | _ :: _, [] => false
  | a :: as, b :: bs => a == b && startsAt as bs

/-- Python's `needle in hay` on strings: contiguous substring containment. -/
def subOf (needle : Str) : Str → Bool
  | [] => needle.isEmpty
  | c :: rest => startsAt needle (c :: rest) || subOf needle rest

/-- The rules object: three dicts, kept in insertion order like Python dicts.
`term_expansions : term -> expansion phrases`, `mappings : phrase -> sections`,
`boosts : url token -> weight`. -/
structure Rules where
  term_expansions : List (Str × List Str)
  mappings : List (Str × List Str)
  boosts : List (Str × Rat)
  deriving DecidableEq, Repr

/-- `_boost_score(url, base)`: start from `base` and add the weight of every
boost token whose lowercased form occurs in the lowercased url. -/
def boost_score (boosts : List (Str × Rat)) (url : Str) (base : Rat) : Rat :=
  let url_l := strLower url
  boosts.foldl (fun score tw =>
    if subOf (strLower tw.1) url_l then score + tw.2 else score) base

/-- One step of the `_expand_terms` loop: extend `out` with the rule's
expansions when the rule's term occurs in the lowercased query. -/
def expandStep (q_l : Str) (out : List Str) (rule : Str × List Str) : List Str :=
  if subOf rule.1 q_l then out ++ rule.2 else out

/-- Helper for `dedupeKeepFirst`: drop elements already seen. -/
def dedupeAux (seen : List Str) : List Str → List Str
  | [] => []
  | x :: xs => if x ∈ seen then dedupeAux seen xs else x :: dedupeAux (x :: seen) xs

/-- `list(dict.fromkeys(xs))`: remove duplicates keeping first occurrences. -/
def dedupeKeepFirst (l : List Str) : List Str := dedupeAux [] l

/-- `_expand_terms(q)`: start from `[q]`, extend with each matching rule's
expansions in rule order, then dedupe keeping order. -/
def expand_terms (R : Rules) (q : Str) : List Str :=
  dedupeKeepFirst (R.term_expansions.foldl (expandStep (strLower q)) [q])

/-- `_implied_sections(q)`: collect the sections of every mapping whose key
occurs in the lowercased query, deduped keeping order. -/
def implied_sections (R : Rules) (q : Str) : List Str :=
  dedupeKeepFirst (R.mappings.foldl
    (fun prefs kv => if subOf kv.1 (strLower q) then prefs ++ kv.2 else prefs) [])

/-- The score a URL earns in expansion pass `idx` (0-based):
`_boost_score(u, base=1.0 - idx*0.05)` plus `0.5` for each implied section
whose lowercased form occurs in the lowercased URL. -/
def passScore (R : Rules) (implied : List Str) (idx : Nat) (u : Str) : Rat :=
  let base : Rat := 1 - (idx : Rat) * (5 / 100)
  let s := boost_score R.boosts u base
  implied.foldl (fun s sec =>
    if subOf (strLower sec) (strLower u) then s + 1 / 2 else s) s

/-- `scored.get(u, 0)` on the association list. -/
def lookupScore (m : List (Str × Rat)) (u : Str) : Option Rat :=
  match m with
  | [] => none
  | kv :: rest => if kv.1 = u then some kv.2 else lookupScore rest u

/-- `scored[u] = max(scored.get(u, 0), score)`: update in place when the key
is present, append otherwise (Python dict insertion order). -/
def upsertMax (m : List (Str × Rat)) (u : Str) (score : Rat) : List (Str × Rat) :=
  match m with
  | [] => [(u, max 0 score)]
  | kv :: rest =>
    if kv.1 = u then (kv.1, max kv.2 score) :: rest
    else kv :: upsertMax rest u score

/-- The publishing-site token `"library.municode.com"`. -/
def MUNICODE : Str := "library.municode.com".toList

/-- Python's `\s` character class (ASCII part). -/
def isPySpace (c : Char) : Bool :=
  c = ' ' || c = '\t' || c = '\n' || c = '\r' || c = '\x0b' || c = '\x0c'

/-- `\w` character class: letters, digits, underscore. -/
def isWordChar (c : Char) : Bool := c.isAlphanum || c = '_'

/-- A parsed HTML document, as the code reads it through BeautifulSoup:
the `get_text` of each `h1`/`h2`/`h3` node in document order, and the
output of `_clean_text` on the whole page. -/
structure HtmlDoc where
  headings : List Str
  cleanedText : Str
  deriving DecidableEq, Repr

/-- The `OrdinanceSection` response model. -/
structure OrdinanceSection where
  section_number : Option Str
  title : Option Str
  url : Option Str
  snippet : Option Str
  text : Option Str
  headings : Option (List Str)
  deriving DecidableEq, Repr

/-- The regex `(§+\s*\d[\w\.\-]*)` matched at the start of `s`:
one or more `§`, optional whitespace, a digit, then word chars, dots,
hyphens (greedy). -/
def matchSecnumAt (s : Str) : Option Str :=
  let p1 := s.span (fun c => c = '§')
  if p1.1 = [] then none
  else
    let p2 := p1.2.span isPySpace
    match p2.2 with
    | [] => none
    | d :: rest =>
      if d.isDigit then
        let p3 := rest.span (fun c => isWordChar c || c = '.' || c = '-')
        some (p1.1 ++ p2.1 ++ [d] ++ p3.1)
      else none

/-- `re.search` for the section-number regex: leftmost match in `s`. -/
def secnumSearch : Str → Option Str
  | [] => none
  | c :: rest =>
    match matchSecnumAt (c :: rest) with
    | some m => some m
    | none => secnumSearch rest

/-- `extract_section_fields(url, html)`: headings are the nonempty
`h1`/`h2`/`h3` texts, the title is the first of them, the section number is
the leftmost `§`-pattern in the title, the text is the cleaned page text and
the snippet its first 300 characters (with an ellipsis when truncated). -/
def extract_section_fields (url : Str) (doc : HtmlDoc) : OrdinanceSection :=
  let headings := doc.headings.filter (fun t => ¬ t.isEmpty)
  let title := headings.head?
  let section_number := title.bind secnumSearch
  let text := doc.cleanedText
  let snippet := if 300 < text.length then text.take 300 ++ ['…'] else text
  { section_number := section_number
    title := title
    url := some url
    snippet := some snippet
    text := some text
    headings := some headings }

/-- The dedupe-with-cap loop of `duckduck_search`: append unseen links and
stop as soon as `max_links` links have been kept. -/
def uniqCapAux (maxLinks : Nat) (uniq : List Str) : List Str → List Str
  | [] => uniq
  | u :: rest =>
    let uniq' := if u ∈ uniq then uniq else uniq ++ [u]
    if maxLinks ≤ uniq'.length then uniq' else uniqCapAux maxLinks uniq' rest

/-- `duckduck_search` after the HTTP GET: from the hrefs of the
`a.result__a` anchors (a missing href is `none`), keep those containing
`library.municode.com`, dedupe keeping order, cap at `maxLinks`. -/
def duckduck_search (maxLinks : Nat) (anchors : List (Option Str)) : List Str :=
  let links := anchors.filterMap (fun h =>
    h.bind (fun href => if subOf MUNICODE href then some href else none))
  uniqCapAux maxLinks [] links

/-- One search pass of `search_ordinance`: score every URL of the pass and
fold it into `scored` with `scored[u] = max(scored.get(u, 0), score)`. -/
def applyPass (R : Rules) (implied : List Str) (idx : Nat)
    (m : List (Str × Rat)) (urls : List Str) : List (Str × Rat) :=
  urls.foldl (fun m u => upsertMax m u (passScore R implied idx u)) m

/-- The pass loop of `search_ordinance`: for each `(idx, term)`, run the web
search; on an exception (`none`) skip the pass (`continue`), otherwise fold
the pass's links into the scores. -/
def scoredLoop (oracle : Str → Option (List (Option Str))) (R : Rules)
    (implied : List Str) : List (Nat × Str) → List (Str × Rat) → List (Str × Rat)
  | [], m => m
  | (idx, term) :: rest, m =>
    match oracle term with
    | none => scoredLoop oracle R implied rest m
    | some anchors =>
      scoredLoop oracle R implied rest (applyPass R implied idx m (duckduck_search 6 anchors))

/-- The candidate scores of a query: every expansion pass folded together. -/
def scoredMap (oracle : Str → Option (List (Option Str))) (R : Rules) (q : Str) :
    List (Str × Rat) :=
  scoredLoop oracle R (implied_sections R q) (expand_terms R q).enum []

/-- Stable descending insertion by score (ties keep earlier elements first). -/
def insertDesc (x : Str × Rat) : List (Str × Rat) → List (Str × Rat)
  | [] => [x]
  | y :: ys => if y.2 < x.2 then x :: y :: ys else y :: insertDesc x ys

/-- `sorted(scored.items(), key=lambda kv: kv[1], reverse=True)`:
a stable sort by descending score. -/
def sortDescByScore (l : List (Str × Rat)) : List (Str × Rat) :=
  l.foldl (fun acc x => insertDesc x acc) []

/-- `[u for u, _ in sorted(...)[:5]]`: the top five URLs by final score. -/
def top_urls (scored : List (Str × Rat)) : List Str :=
  ((sortDescByScore scored).take 5).map (fun kv => kv.1)

/-- The extraction loop over the selected top URLs: a URL whose fetch raises
(`none`) is skipped (`continue`), the others are extracted in order. -/
def resultsLoop (fetchO : Str → Option HtmlDoc) : List Str → List OrdinanceSection
  | [] => []
  | u :: rest =>
    match fetchO u with
    | none => resultsLoop fetchO rest
    | some doc => extract_section_fields u doc :: resultsLoop fetchO rest

/-- The `/searchOrdinance` response model. -/
structure SearchResult where
  results : List OrdinanceSection
  query : Str
  deriving DecidableEq, Repr

/-- The `/searchOrdinance` endpoint: expand the query, score every pass,
pick the top five URLs, fetch and extract each one. -/
def search_ordinance (oracle : Str → Option (List (Option Str)))
    (fetchO : Str → Option HtmlDoc) (R : Rules) (q : Str) : SearchResult :=
  let scored := scoredMap oracle R q
  { results := resultsLoop fetchO (top_urls scored), query := q }

/-- Outcome of `/fetchByUrl`: HTTP 400 for a non-Municode URL, a propagated
fetch error, or the extracted section. -/
inductive FetchByUrlResult where
  | badRequest
  | fetchError
  | ok (s : OrdinanceSection)
  deriving DecidableEq, Repr

/-- The `/fetchByUrl` endpoint: reject URLs not containing
`library.municode.com` with HTTP 400, otherwise fetch and extract. -/
def fetch_by_url (fetchO : Str → Option HtmlDoc) (url : Str) : FetchByUrlResult :=
  if ¬ subOf MUNICODE url then FetchByUrlResult.badRequest
  else
    match fetchO url with
    | none => FetchByUrlResult.fetchError
    | some doc => FetchByUrlResult.ok (extract_section_fields url doc)

/-- Python `str.strip()`: drop leading and trailing whitespace. -/
def stripPy (s : Str) : Str :=
  ((s.dropWhile isPySpace).reverse.dropWhile isPySpace).reverse

/-- Python `str.strip(".")`: drop leading and trailing dots. -/
def stripChar (ch : Char) (s : Str) : Str :=
  ((s.dropWhile (fun c => c = ch)).reverse.dropWhile (fun c => c = ch)).reverse

/-- The character class `[\dA-Za-z\.\-]` of `SEC_RX`. -/
def secClassChar (c : Char) : Bool := c.isAlphanum || c = '.' || c = '-'

/-- The `\s*[\dA-Za-z\.\-]+` tail of both `SEC_RX` alternatives, matched
greedily at the start of `s`; returns the matched tail and the rest. -/
def matchSecTail (s : Str) : Option (Str × Str) :=
  let p1 := s.span isPySpace
  let p2 := p1.2.span secClassChar
  if p2.1 = [] then none else some (p1.1 ++ p2.1, p2.2)

/-- `SEC_RX = (Sec\.?\s*[\dA-Za-z\.\-]+|§\s*[\dA-Za-z\.\-]+)` matched at the
start of `s` (with the regex backtracking on the optional dot);
returns the matched text and the rest. -/
def matchSecAt (s : Str) : Option (Str × Str) :=
  if startsAt "Sec".toList s then
    match s.drop 3 with
    | '.' :: r1 =>
      match matchSecTail r1 with
      | some (t, rest) => some ("Sec.".toList ++ t, rest)
      | none =>
        match matchSecTail ('.' :: r1) with
        | some (t, rest) => some ("Sec".toList ++ t, rest)
        | none => none
    | r0 =>
      match matchSecTail r0 with
      | some (t, rest) => some ("Sec".toList ++ t, rest)
      | none => none
  else if startsAt ['§'] s then
    match matchSecTail (s.drop 1) with
    | some (t, rest) => some ('§' :: t, rest)
    | none => none
  else none

/-- `SEC_RX.findall`: leftmost non-overlapping matches, scanning left to
right (the fuel is the string length, which each step decreases). -/
def findAllSecAux : Nat → Str → List Str
  | 0, _ => []
  | _, [] => []
  | n + 1, c :: rest =>
    match matchSecAt (c :: rest) with
    | some (m, r) => m :: findAllSecAux n r
    | none => findAllSecAux n rest

/-- `SEC_RX.findall(text)`. -/
def findAllSec (s : Str) : List Str := findAllSecAux s.length s

/-- Python `s.replace(pat, "")` for a nonempty `pat`: remove every
non-overlapping occurrence left to right (fuel as above). -/
def replaceDrop (pat : Str) : Nat → Str → Str
  | 0, s => s
  | _, [] => []
  | n + 1, c :: rest =>
    if startsAt pat (c :: rest) then replaceDrop pat n ((c :: rest).drop pat.length)
    else c :: replaceDrop pat n rest

/-- `s.replace(pat, "")`. -/
def replaceAllEmpty (pat s : Str) : Str := replaceDrop pat s.length s

/-- The regex `([0-9]{2,4}[A-Za-z\-\.]*)` matched at the start of `s`:
two to four digits (greedy) and an optional letter/dot/hyphen suffix. -/
def matchNumTokAt (s : Str) : Option Str :=
  let p := s.span Char.isDigit
  if 2 ≤ p.1.length then
    let ds := p.1.take 4
    let rest := p.1.drop 4 ++ p.2
    let p2 := rest.span (fun c => c.isAlpha || c = '-' || c = '.')
    some (ds ++ p2.1)
  else none

/-- `re.search` for `([0-9]{2,4}[A-Za-z\-\.]*)`: leftmost match. -/
def numTokSearch : Str → Option Str
  | [] => none
  | c :: rest =>
    match matchNumTokAt (c :: rest) with
    | some m => some m
    | none => numTokSearch rest

/-- `_extract_sections_from_text`: find `SEC_RX` hits, normalize each
("Sec. 515" becomes "S515"), dedupe keeping order. -/
def extract_sections_from_text (text : Str) : List Str :=
  if text = [] then []
  else
    let hits := findAllSec text
    let norm := hits.filterMap (fun h =>
      let s := h.filter (fun c => c.isAlphanum || c = '.')
      let s := replaceAllEmpty "Sec.".toList s
      let s := replaceAllEmpty "sec.".toList s
      let s := stripChar '.' s
      (numTokSearch s).map (fun m => 'S' :: m))
    dedupeKeepFirst norm

/-- `re.findall(r"_S([0-9A-Za-z]+)", u)`: every captured alphanumeric run
following `_S`, non-overlapping, left to right (fuel as above). -/
def findUSAux : Nat → Str → List Str
  | 0, _ => []
  | _, [] => []
  | n + 1, c :: rest =>
    if startsAt "_S".toList (c :: rest) then
      let p := (rest.drop 1).span Char.isAlphanum
      if p.1 = [] then findUSAux n rest else p.1 :: findUSAux n p.2
    else findUSAux n rest

/-- `re.findall(r"_S([0-9A-Za-z]+)", u)`. -/
def findUSTokens (u : Str) : List Str := findUSAux u.length u

/-- The delimiter class of `re.split(r"[,;/\|\(\)\[\]\{\}]", comment)`. -/
def isDelim (c : Char) : Bool :=
  c = ',' || c = ';' || c = '/' || c = '|' || c = '(' || c = ')' ||
  c = '[' || c = ']' || c = '\x7b' || c = '\x7d'

/-- `re.split` on the delimiter class, keeping empty pieces. -/
def splitOnDelimsAux (cur : Str) : Str → List Str
  | [] => [cur.reverse]
  | c :: rest =>
    if isDelim c then cur.reverse :: splitOnDelimsAux [] rest
    else splitOnDelimsAux (c :: cur) rest

/-- `re.split(r"[,;/\|\(\)\[\]\{\}]", comment)`. -/
def splitOnDelims (s : Str) : List Str := splitOnDelimsAux [] s

/-- A feedback row as stored in `feedback.jsonl` (absent fields are `none`;
the timestamp is external and not part of the model). -/
structure FeedbackRow where
  answer_id : Option Str
  query : Option Str
  rating : Option Int
  comment : Option Str
  suggested_urls : Option (List Str)
  deriving DecidableEq, Repr

/-- `/feedback` response body. -/
structure FeedbackResponse where
  ok : Bool
  stored : Bool
  deriving DecidableEq, Repr

/-- The `/feedback` endpoint: append the row to the feedback log and answer
`{"ok": true, "stored": true}`. -/
def receive_feedback (row : FeedbackRow) (log : List FeedbackRow) :
    FeedbackResponse × List FeedbackRow :=
  ({ ok := true, stored := true }, log ++ [row])

/-- `m.get(k)` on an association list. -/
def assocGet {α : Type} (m : List (Str × α)) (k : Str) : Option α :=
  match m with
  | [] => none
  | kv :: rest => if kv.1 = k then some kv.2 else assocGet rest k

/-- `m[k] = v` on an association list: update in place or append. -/
def assocSet {α : Type} (m : List (Str × α)) (k : Str) (v : α) : List (Str × α) :=
  match m with
  | [] => [(k, v)]
  | kv :: rest => if kv.1 = k then (k, v) :: rest else kv :: assocSet rest k v

/-- `defaultdict(set)` element add: create the bucket on first touch, then
add the value to the bucket's set (a deduped list in insertion order). -/
def addToSetBucket (m : List (Str × List Str)) (k v : Str) : List (Str × List Str) :=
  match m with
  | [] => [(k, [v])]
  | kv :: rest =>
    if kv.1 = k then (kv.1, if v ∈ kv.2 then kv.2 else kv.2 ++ [v]) :: rest
    else kv :: addToSetBucket rest k v

/-- `defaultdict(float)` increment: `m[k] += d` with default `0`. -/
def addBoost (m : List (Str × Rat)) (k : Str) (d : Rat) : List (Str × Rat) :=
  match m with
  | [] => [(k, d)]
  | kv :: rest =>
    if kv.1 = k then (kv.1, kv.2 + d) :: rest
    else kv :: addBoost rest k d

/-- The accumulating `proposals` state of `build_suggestions`. -/
structure SuggState where
  te : List (Str × List Str)
  maps : List (Str × List Str)
  boosts : List (Str × Rat)
  deriving DecidableEq, Repr

/-- One iteration of the `build_suggestions` row loop: skip rows rated
above 3 (or unrated, defaulting to 5), otherwise collect section tokens
from the comment and the suggested URLs, propose multi-word comment tokens
as expansions of the query, and map the query to the sections with a
`0.2` boost each. -/
def processRow (st : SuggState) (row : FeedbackRow) : SuggState :=
  let rating := row.rating.getD 5
  if 3 < rating then st
  else
    let query := stripPy (strLower (row.query.getD []))
    let comment := row.comment.getD []
    let sugg_urls := row.suggested_urls.getD []
    let secs1 := extract_sections_from_text comment
    let urlSecs := sugg_urls.foldl
      (fun acc u => acc ++ (findUSTokens u).map (fun s => 'S' :: s)) []
    let secs := dedupeKeepFirst (secs1 ++ urlSecs)
    let tokens := if comment = [] then []
      else (splitOnDelims comment).filterMap (fun t =>
        let t' := stripPy t
        if t' = [] then none else some (strLower t'))
    let st := tokens.foldl (fun st t =>
      if t.length ≤ 20 ∧ ¬ subOf t query ∧ subOf [' '] t then
        { st with te := addToSetBucket st.te query t }
      else st) st
    secs.foldl (fun st s =>
      { st with maps := addToSetBucket st.maps query s
                boosts := addBoost st.boosts s (1 / 5) }) st

/-- Python string order (code-point lexicographic), as a Bool. -/
def strLtB : Str → Str → Bool
  | [], [] => false
  | [], _ :: _ => true
  | _ :: _, [] => false
  | a :: as, b :: bs =>
    if a.toNat < b.toNat then true
    else if b.toNat < a.toNat then false
    else strLtB as bs

/-- Insertion step of `sorted` on strings. -/
def insertStr (x : Str) : List Str → List Str
  | [] => [x]
  | y :: ys => if strLtB x y then x :: y :: ys else y :: insertStr x ys

/-- `sorted(list_of_strings)`. -/
def sortStrs (l : List Str) : List Str := l.foldr insertStr []

/-- `round(v, 2)` on the exact rational model. -/
def round2 (x : Rat) : Rat := (⌊x * 100 + 1 / 2⌋ : Int) / 100

/-- The suggestions object (`generated_at` is an external timestamp and is
not part of the model). -/
structure Suggestions where
  term_expansions : List (Str × List Str)
  mappings : List (Str × List Str)
  boosts : List (Str × Rat)
  count_source_rows : Nat
  deriving DecidableEq, Repr

/-- `build_suggestions(feedback_rows)`: fold the rows through `processRow`,
then sort each set bucket, keep nonempty buckets and positive boosts, and
round boost weights to two decimals. -/
def build_suggestions (rows : List FeedbackRow) : Suggestions :=
  let st := rows.foldl processRow { te := [], maps := [], boosts := [] }
  { term_expansions :=
      (st.te.filter (fun kv => ¬ kv.2.isEmpty)).map (fun kv => (kv.1, sortStrs kv.2))
    mappings :=
      (st.maps.filter (fun kv => ¬ kv.2.isEmpty)).map (fun kv => (kv.1, sortStrs kv.2))
    boosts :=
      (st.boosts.filter (fun kv => 0 < kv.2)).map (fun kv => (kv.1, round2 kv.2))
    count_source_rows := rows.length }

/-- The `DEFAULT_RULES` constant. -/
def DEFAULT_RULES : Rules :=
  { term_expansions :=
      [("led".toList, ["leisure and entertainment district".toList, "sec. 515".toList]),
       ("bar".toList, ["alcoholic beverages".toList, "on-premises consumption".toList]),
       ("fence".toList, ["fences".toList, "screening".toList])]
    mappings :=
      [("leisure and entertainment district".toList, ["S515".toList])]
    boosts :=
      [("S515".toList, 6 / 10), ("S406".toList, 4 / 10)] }

/-- The raw parse of `rules.yaml`: a key absent from the file is `none`. -/
structure RawRules where
  term_expansions : Option (List (Str × List Str))
  mappings : Option (List (Str × List Str))
  boosts : Option (List (Str × Rat))
  deriving DecidableEq, Repr

/-- `out[k] = v or out.get(k, {})` of the `load_rules` merge: an absent or
empty value falls back to the default. -/
def mergeField {α : Type} (v : Option (List α)) (d : List α) : List α :=
  match v with
  | none => d
  | some l => if l.isEmpty then d else l

/-- What the rules file looks like to `load_rules`: missing, unreadable or
unparsable, or parsed into a raw dict. -/
inductive LoadSrc where
  | missing
  | unreadable
  | parsed (raw : RawRules)
  deriving DecidableEq, Repr

/-- `load_rules()`: the returned rules, and the file content written as a
side effect (only the missing-file branch writes the defaults). -/
def load_rules : LoadSrc → Rules × Option Rules
  | LoadSrc.missing => (DEFAULT_RULES, some DEFAULT_RULES)
  | LoadSrc.unreadable => (DEFAULT_RULES, none)
  | LoadSrc.parsed raw =>
    ({ term_expansions := mergeField raw.term_expansions DEFAULT_RULES.term_expansions
       mappings := mergeField raw.mappings DEFAULT_RULES.mappings
       boosts := mergeField raw.boosts DEFAULT_RULES.boosts }, none)

/-- `save_rules` then re-parsing the YAML file yields this raw dict. -/
def toRaw (r : Rules) : RawRules :=
  { term_expansions := some r.term_expansions
    mappings := some r.mappings
    boosts := some r.boosts }

/-- The `values` field of an `/admin/approve` body: a dict of token
weights, a list of strings, or anything else. -/
inductive JVals where
  | dict (d : List (Str × Rat))
  | list (l : List Str)
  | other
  deriving DecidableEq, Repr

/-- `sorted(list(set(old) | set(new)))`. -/
def sortedUnion (old new : List Str) : List Str :=
  sortStrs (dedupeKeepFirst (old ++ new))

/-- `/admin/approve` on loaded rules: reject an unknown kind or a missing
key with HTTP 400; for `boosts` set each token's weight (dict form) or set
it to `0.3` (list form); for the other two kinds replace the key's bucket
with the sorted deduplicated union of the old and new values. -/
def admin_approve (rules : Rules) (kind key : Str) (values : JVals) :
    Except Nat Rules :=
  if ¬ (kind = "term_expansions".toList ∨ kind = "mappings".toList ∨
        kind = "boosts".toList) then Except.error 400
  else if key = [] then Except.error 400
  else if kind = "boosts".toList then
    match values with
    | JVals.dict d =>
      Except.ok { rules with boosts := d.foldl (fun b kv => assocSet b kv.1 kv.2) rules.boosts }
    | JVals.list l =>
      Except.ok { rules with boosts := l.foldl (fun b t => assocSet b t (3 / 10)) rules.boosts }
    | JVals.other => Except.error 400
  else
    match values with
    | JVals.list l =>
      if kind = "term_expansions".toList then
        let cur := (assocGet rules.term_expansions key).getD []
        Except.ok { rules with term_expansions := assocSet rules.term_expansions key (sortedUnion cur l) }
      else
        let cur := (assocGet rules.mappings key).getD []
        Except.ok { rules with mappings := assocSet rules.mappings key (sortedUnion cur l) }
    | _ => Except.error 400

/-- The passes whose web search succeeded, with their parsed anchors. -/
def successfulPasses (oracle : Str → Option (List (Option Str)))
    (passes : List (Nat × Str)) : List (Nat × List (Option Str)) :=
  passes.filterMap (fun p => (oracle p.2).map (fun anchors => (p.1, anchors)))

/-- The stream of `(url, pass score)` events the pass loop feeds into
`scored`, one per URL per successful pass. -/
def searchEvents (oracle : Str → Option (List (Option Str))) (R : Rules)
    (implied : List Str) (passes : List (Nat × Str)) : List (Str × Rat) :=
  ((successfulPasses oracle passes).map (fun p =>
    (duckduck_search 6 p.2).map (fun u => (u, passScore R implied p.1 u)))).flatten

/-- The pass scores a given URL earned, in pass order. -/
def contribsOf (events : List (Str × Rat)) (u : Str) : List Rat :=
  (events.filter (fun e => e.1 = u)).map (fun e => e.2)

/-- Rules with a single negative boost weight (reachable: the admin can set
any float weight and the rules file can be hand-edited). -/
def negBoostRules : Rules :=
  { term_expansions := [], mappings := [], boosts := [("x".toList, -2)] }

/-- The one candidate URL of the counterexample scenario. -/
def negUrl : Str := "library.municode.com/x".toList

/-- A search oracle returning one Municode link for the query. -/
def negBoostOracle : Str → Option (List (Option Str)) :=
  fun t => if t = "qq".toList then some [some negUrl] else none

/-- A placeholder page: no headings, a "Loading…"-style body. -/
def placeholderDoc : HtmlDoc :=
  { headings := [], cleanedText := "Loading...".toList }

/-- A concrete feedback row (rating 4). -/
def highRatedRow : FeedbackRow :=
  { answer_id := some "a1".toList
    query := some "fence rules".toList
    rating := some 4
    comment := none
    suggested_urls := none }

example : subOf ['b', 'c'] ['a', 'b', 'c', 'd'] = true := by decide
example : subOf ['c', 'b'] ['a', 'b', 'c', 'd'] = false := by decide
example : subOf [] [] = true := by decide
example : dedupeKeepFirst [['a'], ['b'], ['a'], ['c']] = [['a'], ['b'], ['c']] := by decide

/-! ### Basic lemmas about the helpers -/

theorem dedupeKeepFirst_cons (x : Str) (xs : List Str) :
    dedupeKeepFirst (x :: xs) = x :: dedupeAux [x] xs := by
  simp [dedupeKeepFirst, dedupeAux]

theorem mem_dedupeAux {x : Str} {seen : List Str} {l : List Str} :
    x ∈ dedupeAux seen l ↔ x ∈ l ∧ x ∉ seen := by
  induction l generalizing seen with
  | nil => simp [dedupeAux]
  | cons y ys ih =>
    by_cases hy : y ∈ seen
    · simp only [dedupeAux, if_pos hy, ih, List.mem_cons]
      constructor
      · rintro ⟨h1, h2⟩; exact ⟨Or.inr h1, h2⟩
      · rintro ⟨h1 | h1, h2⟩
        · exact absurd (h1 ▸ hy) h2
        · exact ⟨h1, h2⟩
    · simp only [dedupeAux, if_neg hy, List.mem_cons, ih, not_or]
      constructor
      · rintro (rfl | ⟨h1, h2, h3⟩)
        · exact ⟨Or.inl rfl, hy⟩
        · exact ⟨Or.inr h1, h3⟩
      · rintro ⟨rfl | h1, h2⟩
        · exact Or.inl rfl
        · by_cases hxy : x = y
          · exact Or.inl hxy
          · exact Or.inr ⟨h1, hxy, h2⟩

theorem mem_dedupeKeepFirst {x : Str} {l : List Str} :
    x ∈ dedupeKeepFirst l ↔ x ∈ l := by
  simp [dedupeKeepFirst, mem_dedupeAux]

theorem nodup_dedupeAux (seen : List Str) (l : List Str) :
    (dedupeAux seen l).Nodup ∧ ∀ x ∈ dedupeAux seen l, x ∉ seen := by
  induction l generalizing seen with
  | nil => simp [dedupeAux]
  | cons y ys ih =>
    by_cases hy : y ∈ seen
    · simpa [dedupeAux, hy] using ih seen
    · have h := ih (y :: seen)
      refine ⟨?_, ?_⟩
      · simp only [dedupeAux, if_neg hy, List.nodup_cons]
        exact ⟨fun hc => (h.2 y hc) (List.mem_cons_self y seen), h.1⟩
      · intro x hx
        simp only [dedupeAux, if_neg hy, List.mem_cons] at hx
        rcases hx with rfl | hx
        · exact hy
        · exact fun hc => (h.2 x hx) (List.mem_cons_of_mem _ hc)

theorem nodup_dedupeKeepFirst (l : List Str) : (dedupeKeepFirst l).Nodup :=
  (nodup_dedupeAux [] l).1

theorem foldl_expandStep (ql : Str) (rules : List (Str × List Str)) (acc : List Str) :
    rules.foldl (expandStep ql) acc =
      acc ++ ((rules.filter (fun r => subOf r.1 ql)).map Prod.snd).flatten := by
  induction rules generalizing acc with
  | nil => simp
  | cons r rs ih =>
    by_cases h : subOf r.1 ql = true <;>
      simp [expandStep, h, ih, List.append_assoc]

/-- C3: for every query `q`, `_expand_terms` returns `q` first, then the
expansion phrases of every term-expansion rule whose term occurs in the
lowercased `q`, in rule order, duplicates removed keeping the first
occurrence; when no rule matches, the result is exactly `[q]`. -/
theorem expand_terms_spec (R : Rules) (q : Str) :
    expand_terms R q =
      dedupeKeepFirst (q :: ((R.term_expansions.filter
        (fun rule => subOf rule.1 (strLower q))).map Prod.snd).flatten) ∧
    (expand_terms R q).head? = some q ∧
    ((∀ rule ∈ R.term_expansions, ¬ subOf rule.1 (strLower q)) →
      expand_terms R q = [q]) := by
  have hmain : expand_terms R q =
      dedupeKeepFirst (q :: ((R.term_expansions.filter
        (fun rule => subOf rule.1 (strLower q))).map Prod.snd).flatten) := by
    unfold expand_terms
    rw [foldl_expandStep]
    rfl
  refine ⟨hmain, ?_, ?_⟩
  · rw [hmain, dedupeKeepFirst_cons]
    rfl
  · intro hnone
    have hfil : R.term_expansions.filter (fun rule => subOf rule.1 (strLower q)) = [] := by
      rw [List.filter_eq_nil_iff]
      intro r hr
      simpa using hnone r hr
    rw [hmain, hfil]
    rfl

/-- Witness for C3 at a query matching no default rule. -/
theorem expand_terms_spec_witness :
    expand_terms DEFAULT_RULES "zz".toList = ["zz".toList] :=
  (expand_terms_spec DEFAULT_RULES "zz".toList).2.2 (by decide)

theorem processRow_skip (st : SuggState) (row : FeedbackRow)
    (h : 3 < row.rating.getD 5) : processRow st row = st := by
  simp only [processRow, if_pos h]

theorem foldl_processRow_filter (rows : List FeedbackRow) (st : SuggState) :
    rows.foldl processRow st =
      (rows.filter (fun r => r.rating.getD 5 ≤ 3)).foldl processRow st := by
  induction rows generalizing st with
  | nil => rfl
  | cons r rs ih =>
    by_cases h : r.rating.getD 5 ≤ 3
    · have hc : (decide (r.rating.getD 5 ≤ 3)) = true := by simpa using h
      simp only [List.foldl_cons, List.filter_cons, hc, if_true]
      exact ih (processRow st r)
    · have h' : 3 < r.rating.getD 5 := by omega
      have hc : (decide (r.rating.getD 5 ≤ 3)) = false := by simpa using h
      simp only [List.foldl_cons, List.filter_cons, hc, if_false,
        processRow_skip st r h']
      exact ih st

/-- C4: the `term_expansions`, `mappings` and `boosts` sections of the
suggestions depend only on the rows whose rating is at most 3 — dropping
every row rated above 3 (or carrying no rating, which defaults to 5) leaves
those three sections unchanged. -/
theorem build_suggestions_low_rated (rows : List FeedbackRow) :
    (build_suggestions rows).term_expansions =
      (build_suggestions (rows.filter (fun r => r.rating.getD 5 ≤ 3))).term_expansions ∧
    (build_suggestions rows).mappings =
      (build_suggestions (rows.filter (fun r => r.rating.getD 5 ≤ 3))).mappings ∧
    (build_suggestions rows).boosts =
      (build_suggestions (rows.filter (fun r => r.rating.getD 5 ≤ 3))).boosts := by
  unfold build_suggestions
  rw [← foldl_processRow_filter]
  exact ⟨rfl, rfl, rfl⟩

/-- C5 counterexample: posting the same feedback twice does not leave the
same final state as posting it once — the feedback log grows again. -/
theorem receive_feedback_not_idempotent :
    (receive_feedback highRatedRow (receive_feedback highRatedRow []).2).2 ≠
      (receive_feedback highRatedRow []).2 := by decide

/-- C5 (amended): recording feedback returns the same response on a repeat
call but appends the row again, so its final state strictly grows rather
than being idempotent. -/
theorem receive_feedback_appends (row : FeedbackRow) (log : List FeedbackRow) :
    (receive_feedback row (receive_feedback row log).2).1 =
      (receive_feedback row log).1 ∧
    (receive_feedback row (receive_feedback row log).2).2 =
      (receive_feedback row log).2 ++ [row] ∧
    (receive_feedback row (receive_feedback row log).2).2 ≠
      (receive_feedback row log).2 := by
  refine ⟨rfl, rfl, fun h => ?_⟩
  have hlen := congrArg List.length h
  simp only [receive_feedback, List.length_append, List.length_cons,
    List.length_nil] at hlen
  omega

theorem mergeField_spec {α : Type} (v : Option (List α)) (d : List α)
    (hd : ¬ d.isEmpty = true) :
    ¬ (mergeField v d).isEmpty = true ∧
    ((v = none ∨ v = some []) → mergeField v d = d) ∧
    (∀ l, v = some l → l ≠ [] → mergeField v d = l) := by
  cases v with
  | none =>
    refine ⟨hd, fun _ => rfl, fun l h => ?_⟩
    cases h
  | some l =>
    cases l with
    | nil =>
      refine ⟨hd, fun _ => rfl, fun l' h hne => ?_⟩
      cases h
      exact absurd rfl hne
    | cons a as =>
      refine ⟨by simp [mergeField], fun h => ?_, fun l' h _ => ?_⟩
      · rcases h with h | h <;> cases h
      · cases h
        rfl

/-- C10: loading the rules always yields all three sections and each is
nonempty: a missing file writes and returns the defaults, an unreadable or
unparsable file returns the defaults, and a parsed file with a missing or
empty section gets that section refilled from the defaults (a nonempty
parsed section is kept as-is). -/
theorem load_rules_spec (src : LoadSrc) :
    ¬ (load_rules src).1.term_expansions.isEmpty = true ∧
    ¬ (load_rules src).1.mappings.isEmpty = true ∧
    ¬ (load_rules src).1.boosts.isEmpty = true ∧
    (src = LoadSrc.missing → load_rules src = (DEFAULT_RULES, some DEFAULT_RULES)) ∧
    (src = LoadSrc.unreadable → load_rules src = (DEFAULT_RULES, none)) ∧
    (∀ raw, src = LoadSrc.parsed raw →
      (load_rules src).2 = none ∧
      ((raw.term_expansions = none ∨ raw.term_expansions = some []) →
        (load_rules src).1.term_expansions = DEFAULT_RULES.term_expansions) ∧
      (∀ v, raw.term_expansions = some v → v ≠ [] →
        (load_rules src).1.term_expansions = v) ∧
      ((raw.mappings = none ∨ raw.mappings = some []) →
        (load_rules src).1.mappings = DEFAULT_RULES.mappings) ∧
      (∀ v, raw.mappings = some v → v ≠ [] →
        (load_rules src).1.mappings = v) ∧
      ((raw.boosts = none ∨ raw.boosts = some []) →
        (load_rules src).1.boosts = DEFAULT_RULES.boosts) ∧
      (∀ v, raw.boosts = some v → v ≠ [] →
        (load_rules src).1.boosts = v)) := by
  cases src with
  | missing =>
    refine ⟨by decide, by decide, by decide, fun _ => rfl, fun h => ?_, fun raw h => ?_⟩
      <;> cases h
  | unreadable =>
    refine ⟨by decide, by decide, by decide, fun h => ?_, fun _ => rfl, fun raw h => ?_⟩
      <;> cases h
  | parsed raw =>
    have hte := mergeField_spec raw.term_expansions DEFAULT_RULES.term_expansions (by decide)
    have hma := mergeField_spec raw.mappings DEFAULT_RULES.mappings (by decide)
    have hbo := mergeField_spec raw.boosts DEFAULT_RULES.boosts (by decide)
    refine ⟨hte.1, hma.1, hbo.1, fun h => ?_, fun h => ?_, fun raw' h => ?_⟩
    · cases h
    · cases h
    · cases h
      exact ⟨rfl, hte.2.1, hte.2.2, hma.2.1, hma.2.2, hbo.2.1, hbo.2.2⟩

/-- Witness for C10: a parsed file with an empty `term_expansions` section,
no `mappings` key, and a nonempty `boosts` section. -/
theorem load_rules_spec_witness :
    (load_rules (LoadSrc.parsed
      { term_expansions := some []
        mappings := none
        boosts := some [("X9".toList, 1)] })).1.term_expansions =
      DEFAULT_RULES.term_expansions ∧
    (load_rules (LoadSrc.parsed
      { term_expansions := some []
        mappings := none
        boosts := some [("X9".toList, 1)] })).1.boosts = [("X9".toList, 1)] := by
  have h := load_rules_spec (LoadSrc.parsed
    { term_expansions := some []
      mappings := none
      boosts := some [("X9".toList, 1)] })
  have h' := h.2.2.2.2.2 _ rfl
  exact ⟨h'.2.1 (Or.inr rfl), h'.2.2.2.2.2.2 _ rfl (by decide)⟩

/-- C7 counterexample: even on a placeholder page the extraction takes its
text and headings from the HTML itself — there is no DOCX fallback anywhere
in `extract_section_fields` (its only inputs are the URL and the HTML). -/
theorem extract_placeholder_uses_html :
    (extract_section_fields "library.municode.com/x".toList placeholderDoc).text =
      some placeholderDoc.cleanedText ∧
    (extract_section_fields "library.municode.com/x".toList placeholderDoc).headings =
      some [] := by decide

/-- C7 (amended): extraction always reads the HTML: the text is the cleaned
page text, the headings are the nonempty `h1`/`h2`/`h3` texts, the title is
the first of them, the section number is searched in that title, and the
snippet is the text or its 300-character truncation. -/
theorem extract_section_fields_spec (url : Str) (doc : HtmlDoc) :
    (extract_section_fields url doc).text = some doc.cleanedText ∧
    (extract_section_fields url doc).headings =
      some (doc.headings.filter (fun t => ¬ t.isEmpty)) ∧
    (extract_section_fields url doc).title =
      (doc.headings.filter (fun t => ¬ t.isEmpty)).head? ∧
    (extract_section_fields url doc).url = some url ∧
    (extract_section_fields url doc).section_number =
      ((doc.headings.filter (fun t => ¬ t.isEmpty)).head?).bind secnumSearch ∧
    (∀ s, (extract_section_fields url doc).snippet = some s →
      s = doc.cleanedText ∨ s = doc.cleanedText.take 300 ++ ['…']) := by
  refine ⟨rfl, rfl, rfl, rfl, rfl, fun s hs => ?_⟩
  simp only [extract_section_fields, Option.some_inj] at hs
  by_cases h : 300 < doc.cleanedText.length
  · rw [if_pos h] at hs
    exact Or.inr hs.symm
  · rw [if_neg h] at hs
    exact Or.inl hs.symm

/-- Witness for C7's amended theorem on the placeholder page. -/
theorem extract_section_fields_spec_witness :
    (extract_section_fields "library.municode.com/x".toList
      { headings := [[]], cleanedText := "hi".toList }).snippet = some "hi".toList ∧
    ("hi".toList = ("hi".toList : Str) ∨
      "hi".toList = ("hi".toList : Str).take 300 ++ ['…']) :=
  ⟨by decide,
   (extract_section_fields_spec "library.municode.com/x".toList
      { headings := [[]], cleanedText := "hi".toList }).2.2.2.2.2
      "hi".toList (by decide)⟩

theorem uniqCapAux_length {maxL : Nat} (links uniq : List Str)
    (h : uniq.length < maxL) : (uniqCapAux maxL uniq links).length ≤ maxL := by
  induction links generalizing uniq with
  | nil => exact Nat.le_of_lt h
  | cons u rest ih =>
    simp only [uniqCapAux]
    by_cases hm : u ∈ uniq
    · simp only [if_pos hm]
      by_cases hl : maxL ≤ uniq.length
      · simp only [if_pos hl]; omega
      · simp only [if_neg hl]; exact ih uniq h
    · simp only [if_neg hm]
      by_cases hl : maxL ≤ (uniq ++ [u]).length
      · simp only [if_pos hl]
        simp only [List.length_append, List.length_cons, List.length_nil] at *
        omega
      · simp only [if_neg hl]
        exact ih (uniq ++ [u]) (by omega)

theorem uniqCapAux_mem {maxL : Nat} {x : Str} (links uniq : List Str)
    (h : x ∈ uniqCapAux maxL uniq links) : x ∈ uniq ∨ x ∈ links := by
  induction links generalizing uniq with
  | nil => exact Or.inl h
  | cons u rest ih =>
    simp only [uniqCapAux] at h
    by_cases hm : u ∈ uniq
    · rw [if_pos hm] at h
      by_cases hl : maxL ≤ uniq.length
      · rw [if_pos hl] at h; exact Or.inl h
      · rw [if_neg hl] at h
        rcases ih uniq h with h' | h'
        · exact Or.inl h'
        · exact Or.inr (List.mem_cons_of_mem _ h')
    · rw [if_neg hm] at h
      by_cases hl : maxL ≤ (uniq ++ [u]).length
      · rw [if_pos hl] at h
        rcases List.mem_append.mp h with h' | h'
        · exact Or.inl h'
        · exact Or.inr (by simpa using Or.inl (List.mem_singleton.mp h'))
      · rw [if_neg hl] at h
        rcases ih (uniq ++ [u]) h with h' | h'
        · rcases List.mem_append.mp h' with h'' | h''
          · exact Or.inl h''
          · exact Or.inr (by simpa using Or.inl (List.mem_singleton.mp h''))
        · exact Or.inr (List.mem_cons_of_mem _ h')

theorem uniqCapAux_nodup {maxL : Nat} (links uniq : List Str)
    (h : uniq.Nodup) : (uniqCapAux maxL uniq links).Nodup := by
  induction links generalizing uniq with
  | nil => exact h
  | cons u rest ih =>
    simp only [uniqCapAux]
    by_cases hm : u ∈ uniq
    · simp only [if_pos hm]
      by_cases hl : maxL ≤ uniq.length
      · simp only [if_pos hl]; exact h
      · simp only [if_neg hl]; exact ih uniq h
    · simp only [if_neg hm]
      have h' : (uniq ++ [u]).Nodup := by
        simp [List.nodup_append, h, hm]
      by_cases hl : maxL ≤ (uniq ++ [u]).length
      · simp only [if_pos hl]; exact h'
      · simp only [if_neg hl]; exact ih (uniq ++ [u]) h'

theorem duckduck_links_municode {x : Str} {anchors : List (Option Str)}
    (h : x ∈ anchors.filterMap (fun h =>
      h.bind (fun href => if subOf MUNICODE href then some href else none))) :
    subOf MUNICODE x = true := by
  rcases List.mem_filterMap.mp h with ⟨a, _, ha⟩
  cases a with
  | none => cases ha
  | some href =>
    rw [Option.some_bind] at ha
    by_cases hs : subOf MUNICODE href = true
    · rw [if_pos hs] at ha
      cases ha
      exact hs
    · rw [if_neg hs] at ha
      cases ha

/-- C8: fetching is restricted to the publishing site: `/fetchByUrl`
answers HTTP 400 exactly when the URL does not contain
`library.municode.com` (and otherwise fetches and extracts it), and every
link a search pass keeps contains that token, with at most 6 distinct links
kept per pass. -/
theorem site_restriction_spec (fetchO : Str → Option HtmlDoc) (url : Str)
    (anchors : List (Option Str)) :
    (fetch_by_url fetchO url = FetchByUrlResult.badRequest ↔
      ¬ subOf MUNICODE url = true) ∧
    (∀ doc, subOf MUNICODE url = true → fetchO url = some doc →
      fetch_by_url fetchO url = FetchByUrlResult.ok (extract_section_fields url doc)) ∧
    (∀ u ∈ duckduck_search 6 anchors, subOf MUNICODE u = true) ∧
    (duckduck_search 6 anchors).length ≤ 6 ∧
    (duckduck_search 6 anchors).Nodup := by
  have hdd : duckduck_search 6 anchors =
      uniqCapAux 6 [] (anchors.filterMap (fun h =>
        h.bind (fun href => if subOf MUNICODE href then some href else none))) := rfl
  refine ⟨⟨fun h => ?_, fun h => ?_⟩, fun doc hs hf => ?_, fun u hu => ?_, ?_, ?_⟩
  · intro hc
    simp only [fetch_by_url, hc, not_true, if_false] at h
    cases hfo : fetchO url <;> rw [hfo] at h <;> cases h
  · simp [fetch_by_url, h]
  · simp [fetch_by_url, hs, hf]
  · rw [hdd] at hu
    rcases uniqCapAux_mem _ _ hu with h | h
    · cases h
    · exact duckduck_links_municode h
  · rw [hdd]
    exact uniqCapAux_length _ [] (by decide)
  · rw [hdd]
    exact uniqCapAux_nodup _ [] List.nodup_nil

/-- Witness for C8: a non-Municode URL is rejected with 400, and a concrete
pass keeps only Municode links. -/
theorem site_restriction_spec_witness :
    fetch_by_url (fun _ => none) "https://example.com/a".toList =
      FetchByUrlResult.badRequest ∧
    (duckduck_search 6 [some "https://library.municode.com/a".toList,
      none, some "https://example.com/b".toList]).length ≤ 6 :=
  ⟨((site_restriction_spec (fun _ => none) "https://example.com/a".toList []).1).mpr
      (by decide),
   (site_restriction_spec (fun _ => none) "https://example.com/a".toList
      [some "https://library.municode.com/a".toList,
       none, some "https://example.com/b".toList]).2.2.2.1⟩

theorem resultsLoop_eq_filterMap (fetchO : Str → Option HtmlDoc) (urls : List Str) :
    resultsLoop fetchO urls =
      urls.filterMap (fun u => (fetchO u).map (extract_section_fields u)) := by
  induction urls with
  | nil => rfl
  | cons u rest ih =>
    simp only [resultsLoop, List.filterMap_cons]
    cases fetchO u <;> simp [ih]

/-- C6: failures are catch-and-skip: the pass loop is exactly the fold over
the passes whose search succeeded (a failing pass is skipped and the later
passes still run), the extraction loop is exactly the `filterMap` over the
top URLs whose fetch succeeded (a failing URL is omitted and the rest
continue), and the endpoint returns the possibly shorter list instead of
propagating either error. -/
theorem catch_and_skip_spec (oracle : Str → Option (List (Option Str)))
    (fetchO : Str → Option HtmlDoc) (R : Rules) (implied : List Str)
    (passes : List (Nat × Str)) (m : List (Str × Rat)) (q : Str) :
    scoredLoop oracle R implied passes m =
      (successfulPasses oracle passes).foldl
        (fun m p => applyPass R implied p.1 m (duckduck_search 6 p.2)) m ∧
    (search_ordinance oracle fetchO R q).results =
      (top_urls (scoredMap oracle R q)).filterMap
        (fun u => (fetchO u).map (extract_section_fields u)) ∧
    (search_ordinance oracle fetchO R q).results.length ≤
      (top_urls (scoredMap oracle R q)).length := by
  have hloop : ∀ (ps : List (Nat × Str)) (m0 : List (Str × Rat)),
      scoredLoop oracle R implied ps m0 =
        (successfulPasses oracle ps).foldl
          (fun m p => applyPass R implied p.1 m (duckduck_search 6 p.2)) m0 := by
    intro ps
    induction ps with
    | nil => intro m0; rfl
    | cons p rest ih =>
      intro m0
      rcases p with ⟨idx, term⟩
      simp only [scoredLoop, successfulPasses, List.filterMap_cons]
      cases h : oracle term with
      | none => simpa [successfulPasses] using ih m0
      | some anchors =>
        simp only [Option.map_some, List.foldl_cons]
        simpa [successfulPasses] using ih (applyPass R implied idx m0 (duckduck_search 6 anchors))
  refine ⟨hloop passes m, ?_, ?_⟩
  · simp only [search_ordinance]
    exact resultsLoop_eq_filterMap fetchO _
  · simp only [search_ordinance]
    rw [resultsLoop_eq_filterMap fetchO]
    exact List.length_filterMap_le _ _

theorem lookupScore_upsertMax (m : List (Str × Rat)) (v : Str) (s : Rat) (u : Str) :
    lookupScore (upsertMax m v s) u =
      if v = u then some (max ((lookupScore m u).getD 0) s) else lookupScore m u := by
  induction m with
  | nil =>
    by_cases h : v = u <;> simp [upsertMax, lookupScore, h]
  | cons kv rest ih =>
    by_cases hk : kv.1 = v
    · by_cases hu : v = u
      · subst hu
        simp [upsertMax, lookupScore, hk]
      · have hku : ¬ kv.1 = u := fun hc => hu (hk ▸ hc)
        have huv : ¬ u = v := fun hc => hu hc.symm
        simp [upsertMax, lookupScore, hk, hku, hu, huv]
    · by_cases hku : kv.1 = u
      · have hu : ¬ v = u := fun hc => hk (by rw [hc, hku])
        have huv : ¬ u = v := fun hc => hu hc.symm
        simp [upsertMax, lookupScore, hk, hku, hu, huv]
      · simp [upsertMax, lookupScore, hk, hku, ih]

theorem lookupScore_foldl_events (events : List (Str × Rat)) (m : List (Str × Rat))
    (u : Str) :
    lookupScore (events.foldl (fun m e => upsertMax m e.1 e.2) m) u =
      (events.filter (fun e => e.1 = u)).foldl
        (fun acc e => some (max (acc.getD 0) e.2)) (lookupScore m u) := by
  induction events generalizing m with
  | nil => rfl
  | cons e es ih =>
    by_cases he : e.1 = u
    · have hd : (decide (e.1 = u)) = true := by simpa using he
      rw [List.foldl_cons, List.filter_cons, hd, if_pos rfl, List.foldl_cons,
        ih (upsertMax m e.1 e.2), lookupScore_upsertMax, if_pos he]
    · have hd : (decide (e.1 = u)) = false := by simpa using he
      rw [List.foldl_cons, List.filter_cons, hd, if_neg Bool.false_ne_true,
        ih (upsertMax m e.1 e.2), lookupScore_upsertMax, if_neg he]

theorem foldl_someMax_some (l : List Rat) (a : Rat) :
    l.foldl (fun acc e => some (max (acc.getD 0) e)) (some a) = some (l.foldl max a) := by
  induction l generalizing a with
  | nil => rfl
  | cons e es ih => simpa using ih (max a e)

theorem applyPass_eq_events_fold (R : Rules) (implied : List Str) (idx : Nat)
    (m : List (Str × Rat)) (urls : List Str) :
    applyPass R implied idx m urls =
      (urls.map (fun u => (u, passScore R implied idx u))).foldl
        (fun m e => upsertMax m e.1 e.2) m := by
  induction urls generalizing m with
  | nil => rfl
  | cons u rest ih => simpa [applyPass] using ih (upsertMax m u (passScore R implied idx u))

theorem scoredLoop_eq_events_fold (oracle : Str → Option (List (Option Str)))
    (R : Rules) (implied : List Str) (passes : List (Nat × Str)) (m : List (Str × Rat)) :
    scoredLoop oracle R implied passes m =
      (searchEvents oracle R implied passes).foldl (fun m e => upsertMax m e.1 e.2) m := by
  induction passes generalizing m with
  | nil => rfl
  | cons p rest ih =>
    rcases p with ⟨idx, term⟩
    cases h : oracle term with
    | none =>
      have hs : searchEvents oracle R implied ((idx, term) :: rest) =
          searchEvents oracle R implied rest := by
        simp [searchEvents, successfulPasses, List.filterMap_cons, h]
      rw [hs]
      simp only [scoredLoop, h]
      exact ih m
    | some anchors =>
      have hs : searchEvents oracle R implied ((idx, term) :: rest) =
          ((duckduck_search 6 anchors).map (fun u => (u, passScore R implied idx u))) ++
            searchEvents oracle R implied rest := by
        simp [searchEvents, successfulPasses, List.filterMap_cons, h]
      rw [hs, List.foldl_append]
      simp only [scoredLoop, h]
      rw [ih (applyPass R implied idx m (duckduck_search 6 anchors)),
        applyPass_eq_events_fold]

theorem foldl_max_mem (cs : List Rat) (c : Rat) : cs.foldl max c ∈ c :: cs := by
  induction cs generalizing c with
  | nil => simp
  | cons d ds ih =>
    have h := ih (max c d)
    rw [List.foldl_cons]
    rcases List.mem_cons.mp h with h' | h'
    · rw [h']
      rcases max_choice c d with hm | hm <;> rw [hm]
      · exact List.mem_cons_self _ _
      · exact List.mem_cons_of_mem _ (List.mem_cons_self _ _)
    · exact List.mem_cons_of_mem _ (List.mem_cons_of_mem _ h')

theorem le_foldl_max_init (cs : List Rat) (c : Rat) : c ≤ cs.foldl max c := by
  induction cs generalizing c with
  | nil => exact le_refl c
  | cons d ds ih => exact le_trans (le_max_left c d) (ih (max c d))

theorem le_foldl_max_mem {x : Rat} (cs : List Rat) (c : Rat) (hx : x ∈ cs) :
    x ≤ cs.foldl max c := by
  induction cs generalizing c with
  | nil => cases hx
  | cons d ds ih =>
    rcases List.mem_cons.mp hx with rfl | h
    · exact le_trans (le_max_right c x) (le_foldl_max_init ds (max c x))
    · exact ih (max c d) h

theorem foldl_max_max (cs : List Rat) (a b : Rat) :
    cs.foldl max (max a b) = max a (cs.foldl max b) := by
  induction cs generalizing b with
  | nil => rfl
  | cons d ds ih => simpa [max_assoc] using ih (max b d)

theorem foldl_add_if_weights (l : List (Str × Rat)) (P : Str × Rat → Bool)
    (init : Rat) :
    l.foldl (fun s tw => if P tw then s + tw.2 else s) init =
      init + ((l.filter P).map (fun tw => tw.2)).sum := by
  induction l generalizing init with
  | nil => simp
  | cons tw rest ih =>
    by_cases h : P tw = true <;> simp [h, ih, add_assoc]

theorem foldl_add_half (l : List Str) (P : Str → Bool) (init : Rat) :
    l.foldl (fun s x => if P x then s + 1 / 2 else s) init =
      init + (l.filter P).length * (1 / 2) := by
  induction l generalizing init with
  | nil => simp
  | cons x rest ih =>
    by_cases h : P x = true
    · rw [List.foldl_cons, if_pos h, List.filter_cons, if_pos h, ih, List.length_cons]
      push_cast
      ring
    · rw [List.foldl_cons, if_neg h, List.filter_cons, if_neg h, ih]

/-- C2 (amended): a URL's pass score is the static weighted sum
`(1 - 0.05*idx) + Σ matching boost weights + 0.5 * (matching implied
sections)`, and the final recorded score is the maximum of `0` and its pass
scores (the code folds with `max(scored.get(u, 0), score)`, whose default
clamps the recorded value at 0). -/
theorem pass_and_final_score_spec (oracle : Str → Option (List (Option Str)))
    (R : Rules) (q u : Str)
    (h : contribsOf (searchEvents oracle R (implied_sections R q)
      (expand_terms R q).enum) u ≠ []) :
    (∀ (implied : List Str) (idx : Nat) (v : Str), passScore R implied idx v =
      1 - (idx : Rat) * (5 / 100) +
      ((R.boosts.filter (fun tw => subOf (strLower tw.1) (strLower v))).map
        (fun tw => tw.2)).sum +
      (implied.filter (fun sec => subOf (strLower sec) (strLower v))).length * (1 / 2)) ∧
    (∃ M : Rat,
      M ∈ contribsOf (searchEvents oracle R (implied_sections R q)
        (expand_terms R q).enum) u ∧
      (∀ x ∈ contribsOf (searchEvents oracle R (implied_sections R q)
        (expand_terms R q).enum) u, x ≤ M) ∧
      lookupScore (scoredMap oracle R q) u = some (max 0 M)) := by
  constructor
  · intro implied idx v
    simp only [passScore, boost_score, foldl_add_if_weights, foldl_add_half]
  · set events := searchEvents oracle R (implied_sections R q)
      (expand_terms R q).enum with hev
    have hlook : lookupScore (scoredMap oracle R q) u =
        (events.filter (fun e => e.1 = u)).foldl
          (fun acc e => some (max (acc.getD 0) e.2)) none := by
      rw [scoredMap, scoredLoop_eq_events_fold, ← hev, lookupScore_foldl_events]
      rfl
    have hfold : (events.filter (fun e => e.1 = u)).foldl
        (fun acc e => some (max (acc.getD 0) e.2)) none =
        (contribsOf events u).foldl (fun acc e => some (max (acc.getD 0) e)) none := by
      rw [contribsOf, List.foldl_map]
    obtain ⟨c, cs, hc⟩ := List.exists_cons_of_ne_nil h
    refine ⟨cs.foldl max c, ?_, ?_, ?_⟩
    · rw [hc]
      exact foldl_max_mem cs c
    · intro x hx
      rw [hc] at hx
      rcases List.mem_cons.mp hx with rfl | hx'
      · exact le_foldl_max_init cs x
      · exact le_foldl_max_mem cs c hx'
    · rw [hlook, hfold, hc]
      simp only [List.foldl_cons, Option.getD_none]
      rw [foldl_someMax_some, foldl_max_max]

theorem negBoost_passScore : passScore negBoostRules [] 0 negUrl = -1 := by
  have hsub : subOf (strLower "x".toList) (strLower negUrl) = true := by decide
  simp only [passScore, boost_score, negBoostRules, List.foldl_cons, List.foldl_nil,
    hsub, if_true]
  norm_num

theorem negBoost_events :
    searchEvents negBoostOracle negBoostRules
      (implied_sections negBoostRules "qq".toList)
      (expand_terms negBoostRules "qq".toList).enum = [(negUrl, -1)] := by
  have h1 : (expand_terms negBoostRules "qq".toList).enum = [(0, "qq".toList)] := by decide
  have h2 : implied_sections negBoostRules "qq".toList = [] := by decide
  have h3 : successfulPasses negBoostOracle [(0, "qq".toList)] = [(0, [some negUrl])] := by
    decide
  have h4 : duckduck_search 6 [some negUrl] = [negUrl] := by decide
  rw [h2, h1, searchEvents, h3]
  simp [h4, negBoost_passScore]

/-- C2 counterexample: under `negBoostRules` the only pass score of the URL
is `-1`, but the recorded final score is `0`, not the maximum of the pass
scores — `scored[u] = max(scored.get(u, 0), score)` clamps at 0. -/
theorem final_score_not_max_of_pass_scores :
    contribsOf (searchEvents negBoostOracle negBoostRules
      (implied_sections negBoostRules "qq".toList)
      (expand_terms negBoostRules "qq".toList).enum) negUrl = [(-1 : Rat)] ∧
    lookupScore (scoredMap negBoostOracle negBoostRules "qq".toList) negUrl =
      some 0 ∧
    (0 : Rat) ≠ -1 := by
  refine ⟨?_, ?_, by norm_num⟩
  · rw [negBoost_events]
    simp [contribsOf]
  · rw [scoredMap, scoredLoop_eq_events_fold, negBoost_events]
    simp only [List.foldl_cons, List.foldl_nil, upsertMax]
    have hm : max (0 : Rat) (-1) = 0 := max_eq_left (by norm_num)
    simp [lookupScore, hm]

/-- Witness for C2's amended theorem at the same concrete inputs. -/
theorem pass_and_final_score_spec_witness :
    ∃ M : Rat,
      M ∈ contribsOf (searchEvents negBoostOracle negBoostRules
        (implied_sections negBoostRules "qq".toList)
        (expand_terms negBoostRules "qq".toList).enum) negUrl ∧
      (∀ x ∈ contribsOf (searchEvents negBoostOracle negBoostRules
        (implied_sections negBoostRules "qq".toList)
        (expand_terms negBoostRules "qq".toList).enum) negUrl, x ≤ M) ∧
      lookupScore (scoredMap negBoostOracle negBoostRules "qq".toList) negUrl =
        some (max 0 M) :=
  (pass_and_final_score_spec negBoostOracle negBoostRules "qq".toList negUrl
    (by rw [negBoost_events]; simp [contribsOf])).2

theorem insertDesc_perm (x : Str × Rat) (l : List (Str × Rat)) :
    List.Perm (insertDesc x l) (x :: l) := by
  induction l with
  | nil => exact List.Perm.refl _
  | cons y ys ih =>
    by_cases h : y.2 < x.2
    · rw [insertDesc, if_pos h]
    · rw [insertDesc, if_neg h]
      exact (ih.cons y).trans (List.Perm.swap x y ys)

theorem foldl_insertDesc_perm (l acc : List (Str × Rat)) :
    List.Perm (l.foldl (fun acc x => insertDesc x acc) acc) (acc ++ l) := by
  induction l generalizing acc with
  | nil => simp
  | cons x xs ih =>
    have h1 := ih (insertDesc x acc)
    have h2 : List.Perm (insertDesc x acc ++ xs) ((x :: acc) ++ xs) :=
      (insertDesc_perm x acc).append_right xs
    have h3 : List.Perm ((x :: acc) ++ xs) (acc ++ x :: xs) := by
      simpa using List.perm_middle.symm
    exact (h1.trans h2).trans h3

theorem sortDescByScore_perm (l : List (Str × Rat)) :
    List.Perm (sortDescByScore l) l := by
  simpa [sortDescByScore] using foldl_insertDesc_perm l []

theorem pairwise_insertDesc {x : Str × Rat} {l : List (Str × Rat)}
    (hl : l.Pairwise (fun a b => b.2 ≤ a.2)) :
    (insertDesc x l).Pairwise (fun a b => b.2 ≤ a.2) := by
  induction l with
  | nil => simp [insertDesc]
  | cons y ys ih =>
    rcases List.pairwise_cons.mp hl with ⟨hy, hys⟩
    by_cases h : y.2 < x.2
    · rw [insertDesc, if_pos h]
      refine List.pairwise_cons.mpr ⟨?_, hl⟩
      intro z hz
      rcases List.mem_cons.mp hz with rfl | hz'
      · exact le_of_lt h
      · exact le_trans (hy z hz') (le_of_lt h)
    · rw [insertDesc, if_neg h]
      refine List.pairwise_cons.mpr ⟨?_, ih hys⟩
      intro z hz
      have hz2 : z ∈ x :: ys := (insertDesc_perm x ys).mem_iff.mp hz
      rcases List.mem_cons.mp hz2 with rfl | hz'
      · exact not_lt.mp h
      · exact hy z hz'

theorem pairwise_sortDescByScore (l : List (Str × Rat)) :
    (sortDescByScore l).Pairwise (fun a b => b.2 ≤ a.2) := by
  have haux : ∀ (l2 acc : List (Str × Rat)),
      acc.Pairwise (fun a b => b.2 ≤ a.2) →
      (l2.foldl (fun acc x => insertDesc x acc) acc).Pairwise (fun a b => b.2 ≤ a.2) := by
    intro l2
    induction l2 with
    | nil => intro acc h; exact h
    | cons x xs ih => intro acc h; exact ih _ (pairwise_insertDesc h)
  exact haux l [] List.Pairwise.nil

theorem keys_upsertMax (m : List (Str × Rat)) (u : Str) (s : Rat) :
    (upsertMax m u s).map (fun kv => kv.1) =
      if u ∈ m.map (fun kv => kv.1) then m.map (fun kv => kv.1)
      else m.map (fun kv => kv.1) ++ [u] := by
  induction m with
  | nil => simp [upsertMax]
  | cons kv rest ih =>
    by_cases hk : kv.1 = u
    · have hmem : u ∈ (kv :: rest).map (fun kv => kv.1) := by simp [hk]
      rw [upsertMax, if_pos hk, if_pos hmem]
      simp
    · by_cases hc : u ∈ rest.map (fun kv => kv.1)
      · have hmem : u ∈ (kv :: rest).map (fun kv => kv.1) := by
          rw [List.map_cons]
          exact List.mem_cons_of_mem _ hc
        rw [upsertMax, if_neg hk, if_pos hmem, List.map_cons, List.map_cons, ih,
          if_pos hc]
      · have hmem : u ∉ (kv :: rest).map (fun kv => kv.1) := by
          rw [List.map_cons]
          intro hx
          rcases List.mem_cons.mp hx with h' | h'
          · exact hk h'.symm
          · exact hc h'
        rw [upsertMax, if_neg hk, if_neg hmem, List.map_cons, List.map_cons, ih,
          if_neg hc, List.cons_append]

theorem nodup_keys_upsertMax {m : List (Str × Rat)} (u : Str) (s : Rat)
    (h : (m.map (fun kv => kv.1)).Nodup) :
    ((upsertMax m u s).map (fun kv => kv.1)).Nodup := by
  rw [keys_upsertMax]
  by_cases hc : u ∈ m.map (fun kv => kv.1)
  · rwa [if_pos hc]
  · rw [if_neg hc]
    simp [List.nodup_append, h, hc]

theorem nodup_keys_events_fold (events : List (Str × Rat)) (m : List (Str × Rat))
    (h : (m.map (fun kv => kv.1)).Nodup) :
    ((events.foldl (fun m e => upsertMax m e.1 e.2) m).map (fun kv => kv.1)).Nodup := by
  induction events generalizing m with
  | nil => exact h
  | cons e es ih => exact ih _ (nodup_keys_upsertMax e.1 e.2 h)

theorem nodup_keys_scoredMap (oracle : Str → Option (List (Option Str))) (R : Rules)
    (q : Str) : ((scoredMap oracle R q).map (fun kv => kv.1)).Nodup := by
  rw [scoredMap, scoredLoop_eq_events_fold]
  exact nodup_keys_events_fold _ [] List.nodup_nil

theorem lookupScore_of_mem {m : List (Str × Rat)} {kv : Str × Rat} (hm : kv ∈ m)
    (h : (m.map (fun kv => kv.1)).Nodup) : lookupScore m kv.1 = some kv.2 := by
  induction m with
  | nil => cases hm
  | cons hd rest ih =>
    rw [List.map_cons, List.nodup_cons] at h
    rcases List.mem_cons.mp hm with rfl | hm'
    · simp [lookupScore]
    · have hne : ¬ hd.1 = kv.1 := fun he =>
        h.1 (by rw [he]; exact List.mem_map_of_mem _ hm')
      simp only [lookupScore, if_neg hne]
      exact ih hm' h.2

theorem resultsLoop_map_url (fetchO : Str → Option HtmlDoc) (l : List Str) :
    (resultsLoop fetchO l).map (fun s => s.url) =
      (l.filter (fun u => (fetchO u).isSome)).map some := by
  induction l with
  | nil => rfl
  | cons u rest ih =>
    cases h : fetchO u with
    | none => simp [resultsLoop, h, ih]
    | some doc => simp [resultsLoop, h, ih, extract_section_fields]

/-- C1: `/searchOrdinance` returns at most 5 results, their URLs are the
top-five-by-final-score candidates (minus fetch failures, in the sorted
order), every selected URL is one of the scored candidates, and the
selection is ordered by non-increasing final score. -/
theorem top5_ordering_spec (oracle : Str → Option (List (Option Str)))
    (fetchO : Str → Option HtmlDoc) (R : Rules) (q : Str) :
    (search_ordinance oracle fetchO R q).results.length ≤ 5 ∧
    (search_ordinance oracle fetchO R q).results.map (fun s => s.url) =
      ((top_urls (scoredMap oracle R q)).filter (fun u => (fetchO u).isSome)).map some ∧
    (∀ u ∈ top_urls (scoredMap oracle R q),
      u ∈ (scoredMap oracle R q).map (fun kv => kv.1)) ∧
    (top_urls (scoredMap oracle R q)).Pairwise (fun a b =>
      (lookupScore (scoredMap oracle R q) b).getD 0 ≤
        (lookupScore (scoredMap oracle R q) a).getD 0) ∧
    ((top_urls (scoredMap oracle R q)).filter (fun u => (fetchO u).isSome)).Pairwise
      (fun a b => (lookupScore (scoredMap oracle R q) b).getD 0 ≤
        (lookupScore (scoredMap oracle R q) a).getD 0) := by
  have hnd := nodup_keys_scoredMap oracle R q
  have hperm := sortDescByScore_perm (scoredMap oracle R q)
  have hsorted := pairwise_sortDescByScore (scoredMap oracle R q)
  have htake : List.Sublist ((sortDescByScore (scoredMap oracle R q)).take 5)
      (sortDescByScore (scoredMap oracle R q)) := List.take_sublist 5 _
  have hmem5 : ∀ kv ∈ (sortDescByScore (scoredMap oracle R q)).take 5,
      kv ∈ scoredMap oracle R q := fun kv hkv => hperm.mem_iff.mp (htake.subset hkv)
  have hsorted5 := hsorted.sublist htake
  have hpw : (top_urls (scoredMap oracle R q)).Pairwise (fun a b =>
      (lookupScore (scoredMap oracle R q) b).getD 0 ≤
        (lookupScore (scoredMap oracle R q) a).getD 0) := by
    rw [top_urls, List.pairwise_map]
    refine hsorted5.imp_of_mem ?_
    intro a b ha hb hab
    rw [lookupScore_of_mem (hmem5 a ha) hnd, lookupScore_of_mem (hmem5 b hb) hnd]
    simpa using hab
  refine ⟨?_, ?_, ?_, hpw, hpw.sublist (List.filter_sublist _)⟩
  · simp only [search_ordinance]
    rw [resultsLoop_eq_filterMap]
    calc ((top_urls (scoredMap oracle R q)).filterMap
          (fun u => (fetchO u).map (extract_section_fields u))).length
        ≤ (top_urls (scoredMap oracle R q)).length := List.length_filterMap_le _ _
      _ ≤ 5 := by
          rw [top_urls]
          simp [(sortDescByScore (scoredMap oracle R q)).length_take_le 5]
  · simp only [search_ordinance]
    exact resultsLoop_map_url fetchO _
  · intro u hu
    rw [top_urls] at hu
    rcases List.mem_map.mp hu with ⟨kv, hkv, rfl⟩
    exact List.mem_map_of_mem _ (hmem5 kv hkv)

/-- Witness for C1 at concrete inputs (all passes fail, nothing fetched). -/
theorem top5_ordering_spec_witness :
    (search_ordinance (fun _ => none) (fun _ => none) DEFAULT_RULES
      "led".toList).results.length ≤ 5 :=
  (top5_ordering_spec (fun _ => none) (fun _ => none) DEFAULT_RULES "led".toList).1

theorem strLtB_asymm {a b : Str} (h : strLtB a b = true) : strLtB b a = false := by
  induction a generalizing b with
  | nil =>
    cases b with
    | nil => simp [strLtB] at h
    | cons y ys => simp [strLtB]
  | cons x xs ih =>
    cases b with
    | nil => simp [strLtB] at h
    | cons y ys =>
      by_cases h1 : x.toNat < y.toNat
      · have h2 : ¬ y.toNat < x.toNat := by omega
        simp [strLtB, h1, h2]
      · by_cases h2 : y.toNat < x.toNat
        · simp [strLtB, h1, h2] at h
        · have hxs : strLtB xs ys = true := by simpa [strLtB, h1, h2] using h
          simp [strLtB, h1, h2, ih hxs]

theorem strLtB_trans {a b c : Str} (hab : strLtB a b = true)
    (hbc : strLtB b c = true) : strLtB a c = true := by
  induction a generalizing b c with
  | nil =>
    cases c with
    | nil =>
      cases b with
      | nil => simp [strLtB] at hab
      | cons y ys => simp [strLtB] at hbc
    | cons z zs => simp [strLtB]
  | cons x xs ih =>
    cases b with
    | nil => simp [strLtB] at hab
    | cons y ys =>
      cases c with
      | nil => simp [strLtB] at hbc
      | cons z zs =>
        by_cases h1 : x.toNat < y.toNat
        · by_cases h2 : y.toNat < z.toNat
          · have h3 : x.toNat < z.toNat := by omega
            simp [strLtB, h3]
          · by_cases h3 : z.toNat < y.toNat
            · simp [strLtB, h2, h3] at hbc
            · have h4 : x.toNat < z.toNat := by omega
              simp [strLtB, h4]
        · by_cases h1' : y.toNat < x.toNat
          · simp [strLtB, h1, h1'] at hab
          · have hxs : strLtB xs ys = true := by simpa [strLtB, h1, h1'] using hab
            by_cases h2 : y.toNat < z.toNat
            · have h3 : x.toNat < z.toNat := by omega
              simp [strLtB, h3]
            · by_cases h3 : z.toNat < y.toNat
              · simp [strLtB, h2, h3] at hbc
              · have hys : strLtB ys zs = true := by simpa [strLtB, h2, h3] using hbc
                have h4 : ¬ x.toNat < z.toNat := by omega
                have h5 : ¬ z.toNat < x.toNat := by omega
                simp [strLtB, h4, h5, ih hxs hys]

theorem insertStr_perm (x : Str) (l : List Str) :
    List.Perm (insertStr x l) (x :: l) := by
  induction l with
  | nil => exact List.Perm.refl _
  | cons y ys ih =>
    by_cases h : strLtB x y = true
    · rw [insertStr, if_pos h]
    · rw [insertStr, if_neg h]
      exact (ih.cons y).trans (List.Perm.swap x y ys)

theorem sortStrs_perm (l : List Str) : List.Perm (sortStrs l) l := by
  induction l with
  | nil => exact List.Perm.refl _
  | cons x xs ih =>
    exact (insertStr_perm x (sortStrs xs)).trans (ih.cons x)

theorem pairwise_insertStr {x : Str} {l : List Str}
    (hl : l.Pairwise (fun a b => strLtB b a = false)) :
    (insertStr x l).Pairwise (fun a b => strLtB b a = false) := by
  induction l with
  | nil => simp [insertStr]
  | cons y ys ih =>
    rcases List.pairwise_cons.mp hl with ⟨hy, hys⟩
    by_cases h : strLtB x y = true
    · rw [insertStr, if_pos h]
      refine List.pairwise_cons.mpr ⟨?_, hl⟩
      intro z hz
      rcases List.mem_cons.mp hz with rfl | hz'
      · exact strLtB_asymm h
      · by_cases hzx : strLtB z x = true
        · have : strLtB z y = true := strLtB_trans hzx h
          rw [hy z hz'] at this
          cases this
        · simpa using hzx
    · rw [insertStr, if_neg h]
      refine List.pairwise_cons.mpr ⟨?_, ih hys⟩
      intro z hz
      have hz2 : z ∈ x :: ys := (insertStr_perm x ys).mem_iff.mp hz
      rcases List.mem_cons.mp hz2 with rfl | hz'
      · simpa using h
      · exact hy z hz'

theorem pairwise_sortStrs (l : List Str) :
    (sortStrs l).Pairwise (fun a b => strLtB b a = false) := by
  induction l with
  | nil => exact List.Pairwise.nil
  | cons x xs ih => exact pairwise_insertStr ih

/-- `sorted(list(set(old) | set(new)))` is sorted, duplicate-free, and holds
exactly the union of its inputs. -/
theorem sortedUnion_spec (old new : List Str) :
    (sortedUnion old new).Pairwise (fun a b => strLtB b a = false) ∧
    (sortedUnion old new).Nodup ∧
    (∀ x, x ∈ sortedUnion old new ↔ x ∈ old ∨ x ∈ new) := by
  refine ⟨pairwise_sortStrs _, ?_, ?_⟩
  · exact ((sortStrs_perm _).nodup_iff).mpr (nodup_dedupeKeepFirst _)
  · intro x
    rw [sortedUnion, (sortStrs_perm _).mem_iff, mem_dedupeKeepFirst,
      List.mem_append]

theorem assocGet_assocSet_self {α : Type} (m : List (Str × α)) (k : Str) (v : α) :
    assocGet (assocSet m k v) k = some v := by
  induction m with
  | nil => simp [assocSet, assocGet]
  | cons kv rest ih =>
    by_cases h : kv.1 = k
    · simp [assocSet, assocGet, h]
    · simp [assocSet, assocGet, h, ih]

theorem assocGet_assocSet_other {α : Type} (m : List (Str × α)) (k : Str) (v : α)
    {k' : Str} (h : ¬ k' = k) : assocGet (assocSet m k v) k' = assocGet m k' := by
  have hkk : ¬ k = k' := fun hc => h hc.symm
  induction m with
  | nil => simp [assocSet, assocGet, hkk]
  | cons kv rest ih =>
    by_cases hk : kv.1 = k
    · have hkv : ¬ kv.1 = k' := fun hc => h (hc.symm.trans hk)
      simp [assocSet, assocGet, hk, hkk, hkv]
    · simp only [assocSet, if_neg hk]
      by_cases hkv : kv.1 = k'
      · simp [assocGet, hkv]
      · simp [assocGet, hkv, ih]

theorem assocSet_ne_nil {α : Type} (m : List (Str × α)) (k : Str) (v : α) :
    assocSet m k v ≠ [] := by
  cases m with
  | nil => simp [assocSet]
  | cons kv rest =>
    by_cases h : kv.1 = k <;> simp [assocSet, h]

theorem foldl_assocSet_ne_nil {α : Type} (d : List (Str × α)) (m : List (Str × α))
    (h : m ≠ []) : d.foldl (fun b kv => assocSet b kv.1 kv.2) m ≠ [] := by
  induction d generalizing m with
  | nil => exact h
  | cons e es ih => exact ih _ (assocSet_ne_nil _ _ _)

theorem foldl_assocSet_const_ne_nil {α : Type} (l : List Str) (c : α)
    (m : List (Str × α)) (h : m ≠ []) :
    l.foldl (fun b t => assocSet b t c) m ≠ [] := by
  induction l generalizing m with
  | nil => exact h
  | cons t ts ih => exact ih _ (assocSet_ne_nil _ _ _)

theorem assocGet_foldl_assocSet_notmem {α : Type} (d : List (Str × α))
    (m : List (Str × α)) {k : Str} (h : k ∉ d.map (fun kv => kv.1)) :
    assocGet (d.foldl (fun b kv => assocSet b kv.1 kv.2) m) k = assocGet m k := by
  induction d generalizing m with
  | nil => rfl
  | cons e es ih =>
    rw [List.map_cons] at h
    have h1 : k ∉ es.map (fun kv => kv.1) := fun hc => h (List.mem_cons_of_mem _ hc)
    have h2 : ¬ k = e.1 := fun hc => h (hc ▸ List.mem_cons_self _ _)
    rw [List.foldl_cons, ih _ h1, assocGet_assocSet_other _ _ _ h2]

theorem assocGet_foldl_assocSet_mem {α : Type} (d : List (Str × α))
    (m : List (Str × α)) {kv : Str × α} (hnd : (d.map (fun kv => kv.1)).Nodup)
    (hm : kv ∈ d) :
    assocGet (d.foldl (fun b kv => assocSet b kv.1 kv.2) m) kv.1 = some kv.2 := by
  induction d generalizing m with
  | nil => cases hm
  | cons e es ih =>
    rw [List.map_cons, List.nodup_cons] at hnd
    rcases List.mem_cons.mp hm with rfl | hm'
    · rw [List.foldl_cons, assocGet_foldl_assocSet_notmem es _ hnd.1,
        assocGet_assocSet_self]
    · exact ih _ hnd.2 hm'

theorem assocGet_foldl_assocSet_const_notmem {α : Type} (l : List Str) (c : α)
    (m : List (Str × α)) {k : Str} (h : k ∉ l) :
    assocGet (l.foldl (fun b x => assocSet b x c) m) k = assocGet m k := by
  induction l generalizing m with
  | nil => rfl
  | cons e es ih =>
    have h1 : k ∉ es := fun hc => h (List.mem_cons_of_mem _ hc)
    have h2 : ¬ k = e := fun hc => h (hc ▸ List.mem_cons_self _ _)
    rw [List.foldl_cons, ih _ h1, assocGet_assocSet_other _ _ _ h2]

theorem assocGet_foldl_assocSet_const_mem {α : Type} (l : List Str) (c : α)
    (m : List (Str × α)) {t : Str} (hm : t ∈ l) :
    assocGet (l.foldl (fun b x => assocSet b x c) m) t = some c := by
  induction l generalizing m with
  | nil => cases hm
  | cons e es ih =>
    by_cases he : t ∈ es
    · exact ih _ he
    · rcases List.mem_cons.mp hm with rfl | hm'
      · rw [List.foldl_cons, assocGet_foldl_assocSet_const_notmem es c _ he,
          assocGet_assocSet_self]
      · exact absurd hm' he

theorem admin_approve_te_eq (rules : Rules) (key : Str) (l : List Str)
    (hkey : ¬ key = []) :
    admin_approve rules "term_expansions".toList key (JVals.list l) =
      Except.ok { rules with term_expansions := (assocSet rules.term_expansions key
        (sortedUnion ((assocGet rules.term_expansions key).getD []) l)) } := by
  simp only [admin_approve]
  rw [if_neg (by decide), if_neg hkey]
  rfl

theorem admin_approve_map_eq (rules : Rules) (key : Str) (l : List Str)
    (hkey : ¬ key = []) :
    admin_approve rules "mappings".toList key (JVals.list l) =
      Except.ok { rules with mappings := (assocSet rules.mappings key
        (sortedUnion ((assocGet rules.mappings key).getD []) l)) } := by
  simp only [admin_approve]
  rw [if_neg (by decide), if_neg hkey]
  rfl

theorem admin_approve_boosts_dict_eq (rules : Rules) (key : Str)
    (d : List (Str × Rat)) (hkey : ¬ key = []) :
    admin_approve rules "boosts".toList key (JVals.dict d) =
      Except.ok { rules with boosts :=
        (d.foldl (fun b kv => assocSet b kv.1 kv.2) rules.boosts) } := by
  simp only [admin_approve]
  rw [if_neg (by decide), if_neg hkey]
  rfl

theorem admin_approve_boosts_list_eq (rules : Rules) (key : Str)
    (l : List Str) (hkey : ¬ key = []) :
    admin_approve rules "boosts".toList key (JVals.list l) =
      Except.ok { rules with boosts :=
        (l.foldl (fun b t => assocSet b t (3 / 10)) rules.boosts) } := by
  simp only [admin_approve]
  rw [if_neg (by decide), if_neg hkey]
  rfl

theorem admin_approve_invalid_kind (rules : Rules) (kind key : Str) (values : JVals)
    (h : ¬ (kind = "term_expansions".toList ∨ kind = "mappings".toList ∨
      kind = "boosts".toList)) :
    admin_approve rules kind key values = Except.error 400 := by
  simp only [admin_approve]
  rw [if_pos h]

theorem admin_approve_missing_key (rules : Rules) (kind : Str) (values : JVals) :
    admin_approve rules kind [] values = Except.error 400 := by
  simp only [admin_approve]
  by_cases hv : (kind = "term_expansions".toList ∨ kind = "mappings".toList ∨
      kind = "boosts".toList)
  · rw [if_neg (not_not_intro hv), if_pos trivial]
  · rw [if_pos hv]

theorem load_parsed_toRaw (r : Rules)
    (h1 : ¬ r.term_expansions.isEmpty = true)
    (h2 : ¬ r.mappings.isEmpty = true)
    (h3 : ¬ r.boosts.isEmpty = true) :
    (load_rules (LoadSrc.parsed (toRaw r))).1 = r := by
  simp only [load_rules, toRaw, mergeField]
  rw [if_neg h1, if_neg h2, if_neg h3]

theorem not_isEmpty_of_ne_nil {α : Type} {l : List α} (h : l ≠ []) :
    ¬ l.isEmpty = true := by
  cases l with
  | nil => exact absurd rfl h
  | cons a as => simp

theorem admin_approve_ok_ne_nil (rules : Rules) (kind key : Str) (values : JVals)
    (r' : Rules)
    (h1 : ¬ rules.term_expansions.isEmpty = true)
    (h2 : ¬ rules.mappings.isEmpty = true)
    (h3 : ¬ rules.boosts.isEmpty = true)
    (hok : admin_approve rules kind key values = Except.ok r') :
    ¬ r'.term_expansions.isEmpty = true ∧ ¬ r'.mappings.isEmpty = true ∧
      ¬ r'.boosts.isEmpty = true := by
  have hbne : rules.boosts ≠ [] := fun hc => h3 (by rw [hc]; rfl)
  by_cases hv : (kind = "term_expansions".toList ∨ kind = "mappings".toList ∨
      kind = "boosts".toList)
  · by_cases hkey : key = []
    · subst hkey
      rw [admin_approve_missing_key] at hok
      cases hok
    · rcases hv with rfl | rfl | rfl
      · cases values with
        | dict d =>
          have he : admin_approve rules "term_expansions".toList key
              (JVals.dict d) = Except.error 400 := by
            simp only [admin_approve]
            rw [if_neg (by decide), if_neg hkey]
            rfl
          rw [he] at hok
          cases hok
        | list l =>
          rw [admin_approve_te_eq rules key l hkey] at hok
          injection hok with h
          rw [← h]
          exact ⟨not_isEmpty_of_ne_nil (assocSet_ne_nil _ _ _), h2, h3⟩
        | other =>
          have he : admin_approve rules "term_expansions".toList key
              JVals.other = Except.error 400 := by
            simp only [admin_approve]
            rw [if_neg (by decide), if_neg hkey]
            rfl
          rw [he] at hok
          cases hok
      · cases values with
        | dict d =>
          have he : admin_approve rules "mappings".toList key
              (JVals.dict d) = Except.error 400 := by
            simp only [admin_approve]
            rw [if_neg (by decide), if_neg hkey]
            rfl
          rw [he] at hok
          cases hok
        | list l =>
          rw [admin_approve_map_eq rules key l hkey] at hok
          injection hok with h
          rw [← h]
          exact ⟨h1, not_isEmpty_of_ne_nil (assocSet_ne_nil _ _ _), h3⟩
        | other =>
          have he : admin_approve rules "mappings".toList key
              JVals.other = Except.error 400 := by
            simp only [admin_approve]
            rw [if_neg (by decide), if_neg hkey]
            rfl
          rw [he] at hok
          cases hok
      · cases values with
        | dict d =>
          rw [admin_approve_boosts_dict_eq rules key d hkey] at hok
          injection hok with h
          rw [← h]
          exact ⟨h1, h2, not_isEmpty_of_ne_nil (foldl_assocSet_ne_nil _ _ hbne)⟩
        | list l =>
          rw [admin_approve_boosts_list_eq rules key l hkey] at hok
          injection hok with h
          rw [← h]
          exact ⟨h1, h2, not_isEmpty_of_ne_nil (foldl_assocSet_const_ne_nil _ _ _ hbne)⟩
        | other =>
          have he : admin_approve rules "boosts".toList key
              JVals.other = Except.error 400 := by
            simp only [admin_approve]
            rw [if_neg (by decide), if_neg hkey]
            rfl
          rw [he] at hok
          cases hok
  · rw [admin_approve_invalid_kind rules kind key values hv] at hok
    cases hok

theorem load_rules_fields_ne_nil (src : LoadSrc) :
    ¬ (load_rules src).1.term_expansions.isEmpty = true ∧
    ¬ (load_rules src).1.mappings.isEmpty = true ∧
    ¬ (load_rules src).1.boosts.isEmpty = true := by
  cases src with
  | missing => exact ⟨by decide, by decide, by decide⟩
  | unreadable => exact ⟨by decide, by decide, by decide⟩
  | parsed raw =>
    exact ⟨(mergeField_spec _ _ (by decide)).1, (mergeField_spec _ _ (by decide)).1,
      (mergeField_spec _ _ (by decide)).1⟩

/-- C9: a successful `/admin/approve` updates and persists the rules: for
`term_expansions` or `mappings` the key's bucket becomes the sorted,
deduplicated union of the existing and the given values; for `boosts` each
given token's weight is set to the supplied number (dict form) or `0.3`
(list form); the saved rules reload unchanged for subsequent searches; an
unknown kind or a missing key is rejected with HTTP 400, producing no
updated rules. -/
theorem admin_approve_spec (src : LoadSrc) (kind key : Str) (values : JVals) :
    (¬ (kind = "term_expansions".toList ∨ kind = "mappings".toList ∨
        kind = "boosts".toList) →
      admin_approve (load_rules src).1 kind key values = Except.error 400) ∧
    (key = [] →
      admin_approve (load_rules src).1 kind key values = Except.error 400) ∧
    (∀ r', admin_approve (load_rules src).1 kind key values = Except.ok r' →
      (load_rules (LoadSrc.parsed (toRaw r'))).1 = r') ∧
    (∀ l r', ¬ key = [] → kind = "term_expansions".toList →
      admin_approve (load_rules src).1 kind key (JVals.list l) = Except.ok r' →
      r'.mappings = (load_rules src).1.mappings ∧
      r'.boosts = (load_rules src).1.boosts ∧
      (∀ k, ¬ k = key → assocGet r'.term_expansions k =
        assocGet (load_rules src).1.term_expansions k) ∧
      assocGet r'.term_expansions key =
        some (sortedUnion
          ((assocGet (load_rules src).1.term_expansions key).getD []) l) ∧
      (∀ u, assocGet r'.term_expansions key = some u →
        u.Pairwise (fun a b => strLtB b a = false) ∧ u.Nodup ∧
        (∀ x, x ∈ u ↔
          x ∈ (assocGet (load_rules src).1.term_expansions key).getD [] ∨ x ∈ l))) ∧
    (∀ l r', ¬ key = [] → kind = "mappings".toList →
      admin_approve (load_rules src).1 kind key (JVals.list l) = Except.ok r' →
      r'.term_expansions = (load_rules src).1.term_expansions ∧
      r'.boosts = (load_rules src).1.boosts ∧
      (∀ k, ¬ k = key → assocGet r'.mappings k =
        assocGet (load_rules src).1.mappings k) ∧
      assocGet r'.mappings key =
        some (sortedUnion ((assocGet (load_rules src).1.mappings key).getD []) l) ∧
      (∀ u, assocGet r'.mappings key = some u →
        u.Pairwise (fun a b => strLtB b a = false) ∧ u.Nodup ∧
        (∀ x, x ∈ u ↔
          x ∈ (assocGet (load_rules src).1.mappings key).getD [] ∨ x ∈ l))) ∧
    (∀ d r', ¬ key = [] → kind = "boosts".toList →
      admin_approve (load_rules src).1 kind key (JVals.dict d) = Except.ok r' →
      r'.term_expansions = (load_rules src).1.term_expansions ∧
      r'.mappings = (load_rules src).1.mappings ∧
      ((d.map (fun kv => kv.1)).Nodup →
        ∀ kv ∈ d, assocGet r'.boosts kv.1 = some kv.2) ∧
      (∀ k, k ∉ d.map (fun kv => kv.1) →
        assocGet r'.boosts k = assocGet (load_rules src).1.boosts k)) ∧
    (∀ l r', ¬ key = [] → kind = "boosts".toList →
      admin_approve (load_rules src).1 kind key (JVals.list l) = Except.ok r' →
      r'.term_expansions = (load_rules src).1.term_expansions ∧
      r'.mappings = (load_rules src).1.mappings ∧
      (∀ t ∈ l, assocGet r'.boosts t = some (3 / 10)) ∧
      (∀ k, k ∉ l → assocGet r'.boosts k = assocGet (load_rules src).1.boosts k)) := by
  have hne := load_rules_fields_ne_nil src
  refine ⟨?_, ?_, ?_, ?_, ?_, ?_, ?_⟩
  · exact fun h => admin_approve_invalid_kind _ kind key values h
  · intro h
    subst h
    exact admin_approve_missing_key _ kind values
  · intro r' hok
    obtain ⟨g1, g2, g3⟩ := admin_approve_ok_ne_nil _ kind key values r'
      hne.1 hne.2.1 hne.2.2 hok
    exact load_parsed_toRaw r' g1 g2 g3
  · intro l r' hkey hkind hok
    subst hkind
    rw [admin_approve_te_eq _ key l hkey] at hok
    injection hok with h
    rw [← h]
    refine ⟨rfl, rfl, fun k hk => assocGet_assocSet_other _ _ _ hk,
      assocGet_assocSet_self _ _ _, ?_⟩
    intro u hu
    rw [assocGet_assocSet_self] at hu
    injection hu with hu2
    rw [← hu2]
    exact sortedUnion_spec _ l
  · intro l r' hkey hkind hok
    subst hkind
    rw [admin_approve_map_eq _ key l hkey] at hok
    injection hok with h
    rw [← h]
    refine ⟨rfl, rfl, fun k hk => assocGet_assocSet_other _ _ _ hk,
      assocGet_assocSet_self _ _ _, ?_⟩
    intro u hu
    rw [assocGet_assocSet_self] at hu
    injection hu with hu2
    rw [← hu2]
    exact sortedUnion_spec _ l
  · intro d r' hkey hkind hok
    subst hkind
    rw [admin_approve_boosts_dict_eq _ key d hkey] at hok
    injection hok with h
    rw [← h]
    exact ⟨rfl, rfl, fun hnd kv hkv => assocGet_foldl_assocSet_mem d _ hnd hkv,
      fun k hk => assocGet_foldl_assocSet_notmem d _ hk⟩
  · intro l r' hkey hkind hok
    subst hkind
    rw [admin_approve_boosts_list_eq _ key l hkey] at hok
    injection hok with h
    rw [← h]
    exact ⟨rfl, rfl, fun t ht => assocGet_foldl_assocSet_const_mem l _ _ ht,
      fun k hk => assocGet_foldl_assocSet_const_notmem l _ _ hk⟩

/-- Witness for C9: a missing key is rejected with HTTP 400. -/
theorem admin_approve_spec_witness :
    admin_approve (load_rules LoadSrc.missing).1 "boosts".toList []
      (JVals.list []) = Except.error 400 :=
  (admin_approve_spec LoadSrc.missing "boosts".toList [] (JVals.list [])).2.1 rfl

/-- Witness for C5's amended theorem at a concrete row. -/
theorem receive_feedback_appends_witness :
    (receive_feedback highRatedRow (receive_feedback highRatedRow []).2).2 =
      (receive_feedback highRatedRow []).2 ++ [highRatedRow] :=
  (receive_feedback_appends highRatedRow []).2.1

/-- Witness for C6 at concrete oracles (the pass loop over an empty pass
list leaves the scores unchanged). -/
theorem catch_and_skip_spec_witness :
    scoredLoop (fun _ => none) DEFAULT_RULES [] [] [] =
      (successfulPasses (fun _ => none) []).foldl
        (fun m p => applyPass DEFAULT_RULES [] p.1 m (duckduck_search 6 p.2)) [] :=
  (catch_and_skip_spec (fun _ => none) (fun _ => none) DEFAULT_RULES [] [] []
    "led".toList).1

/-- Witness for C4 at a concrete one-row log. -/
theorem build_suggestions_low_rated_witness :
    (build_suggestions [highRatedRow]).boosts =
      (build_suggestions ([highRatedRow].filter
        (fun r => r.rating.getD 5 ≤ 3))).boosts :=
  (build_suggestions_low_rated [highRatedRow]).2.2
